import Mathlib

/-!
Verification development for the Screener_Proc repository: a shallow
embedding of the consolidation step (`clean_data.py`), the partial market
refresh (`clean_data.py` / `fetch_stock_data`), the screening and ranking
step (`screen_data.py`), and the two collectors
(`scrape_data_yfinance.py`, `scrape_data_yahooquery.py`), together with
proofs of the behavioural properties of those functions.

Conventions of the embedding:
* A table cell is `Option ℚ`: `none` is the absent/NaN marker, `some x`
  a present numeric value.  Pandas comparisons against NaN are false and
  NaN propagates through arithmetic; the `Option` combinators below
  mirror that.
* The 14-digit filename timestamp `YYYYMMDDHHMMSS` is modelled as the
  natural number it spells: `pd.to_datetime` on that fixed-width format
  is strictly monotone in the numeric value, so comparing the numbers
  is comparing the datetimes.
* `pandas.sort_values(by=['Ticker', 'Timestamp'], ascending=[True, False])`
  sorts lexicographically by the two keys with `numpy.lexsort`, a stable
  sort; it is modelled with `List.mergeSort` over the corresponding
  boolean total preorder.
-/

namespace Screener

/-- A table cell: a present rational value or the absent/NaN marker. -/
abbrev Cell := Option ℚ

/-! ## Consolidation (`clean_data.py`, full-processing branch)

The consolidation is generic in the non-`Ticker` columns of a scraped
row, so the payload is a type parameter. -/

/-- One row of a scraped CSV file: the `Ticker` column plus the
remaining columns, abstracted as a payload. -/
structure SRow (α : Type) where
  ticker : String
  payload : α
deriving DecidableEq

/-- One scraped CSV file for a region: the 14-digit timestamp embedded
in its filename plus its rows. -/
structure ScrapeFile (α : Type) where
  timestamp : ℕ
  rows : List (SRow α)
deriving DecidableEq

/-- A row after `df['Timestamp'] = timestamp`: the row together with the
timestamp of the file it came from. -/
structure TRow (α : Type) where
  ticker : String
  timestamp : ℕ
  payload : α
deriving DecidableEq

/-- Attach the file's timestamp to each of its rows
(`df['Timestamp'] = timestamp`). -/
def tagRows {α : Type} (f : ScrapeFile α) : List (TRow α) :=
  f.rows.map (fun r => ⟨r.ticker, f.timestamp, r.payload⟩)

/-- `pd.concat(file_data, ignore_index=True)`: all rows of all parsed
files, in file enumeration order. -/
def combinedRows {α : Type} (files : List (ScrapeFile α)) : List (TRow α) :=
  (files.map tagRows).flatten

/-- The sort key of
`sort_values(by=['Ticker', 'Timestamp'], ascending=[True, False])`:
ticker ascending, then timestamp descending. -/
def rowLE {α : Type} (a b : TRow α) : Bool :=
  if a.ticker = b.ticker then decide (b.timestamp ≤ a.timestamp)
  else decide (a.ticker < b.ticker)

/-- `drop_duplicates(subset='Ticker', keep='first')`: keep the first row
for each ticker, in order; `seen` is the set of tickers already kept. -/
def dropDup {α : Type} (seen : List String) : List (TRow α) → List (TRow α)
  | [] => []
  | r :: rs =>
    if r.ticker ∈ seen then dropDup seen rs
    else r :: dropDup (r.ticker :: seen) rs

/-- `clean_df.drop(columns=['Timestamp'])`. -/
def dropTs {α : Type} (r : TRow α) : SRow α :=
  ⟨r.ticker, r.payload⟩

/-- The full-processing branch of `clean_scraped_data` for one region:
concatenate the parsed files' rows tagged with their file timestamps,
sort stably by (ticker ascending, timestamp descending), keep the first
row per ticker, and drop the timestamp column. -/
def consolidate {α : Type} (files : List (ScrapeFile α)) : List (SRow α) :=
  ((combinedRows files).mergeSort rowLE |> dropDup []).map dropTs

/-! ### Properties of the sort key and of `dropDup` -/

theorem rowLE_trans {α : Type} (a b c : TRow α) :
    rowLE a b = true → rowLE b c = true → rowLE a c = true := by
  unfold rowLE
  by_cases h1 : a.ticker = b.ticker <;> by_cases h2 : b.ticker = c.ticker
  · simp only [if_pos h1, if_pos h2, if_pos (h1.trans h2), decide_eq_true_eq]
    omega
  · have h3 : ¬ a.ticker = c.ticker := fun e => h2 (h1 ▸ e)
    simp only [if_pos h1, if_neg h2, if_neg h3, decide_eq_true_eq]
    intro _ hbc
    exact h1.symm ▸ hbc
  · have h3 : ¬ a.ticker = c.ticker := fun e => h1 (e.trans h2.symm)
    simp only [if_neg h1, if_pos h2, if_neg h3, decide_eq_true_eq]
    intro hab _
    exact h2 ▸ hab
  · simp only [if_neg h1, if_neg h2, decide_eq_true_eq]
    intro hab hbc
    have h3 : ¬ a.ticker = c.ticker := fun e => absurd (e ▸ hab.trans hbc) (lt_irrefl _)
    simp only [if_neg h3, decide_eq_true_eq]
    exact hab.trans hbc

theorem rowLE_total {α : Type} (a b : TRow α) : (rowLE a b || rowLE b a) = true := by
  unfold rowLE
  by_cases h : a.ticker = b.ticker
  · simp only [if_pos h, if_pos h.symm, Bool.or_eq_true, decide_eq_true_eq]
    omega
  · have h' : ¬ b.ticker = a.ticker := fun e => h e.symm
    simp only [if_neg h, if_neg h', Bool.or_eq_true, decide_eq_true_eq]
    exact lt_or_gt_of_ne h

/-- Once a ticker has been seen, `dropDup` never emits another row for it. -/
theorem dropDup_filter_of_mem {α : Type} (t : String) :
    ∀ (xs : List (TRow α)) (seen : List String), t ∈ seen →
      (dropDup seen xs).filter (fun r => r.ticker == t) = []
  | [], _, _ => rfl
  | x :: xs, seen, ht => by
    simp only [dropDup]
    split_ifs with hx
    · exact dropDup_filter_of_mem t xs seen ht
    · have hxt : ¬ ((x.ticker == t) = true) := by
        simp only [beq_iff_eq]
        exact fun e => hx (e ▸ ht)
      rw [List.filter_cons_of_neg (p := fun (r : TRow α) => r.ticker == t) hxt]
      exact dropDup_filter_of_mem t xs (x.ticker :: seen) (List.mem_cons_of_mem _ ht)

/-- For a ticker not yet seen, `dropDup` keeps exactly the first row
with that ticker. -/
theorem dropDup_filter_take {α : Type} (t : String) :
    ∀ (xs : List (TRow α)) (seen : List String), t ∉ seen →
      (dropDup seen xs).filter (fun r => r.ticker == t)
        = (xs.filter (fun r => r.ticker == t)).take 1
  | [], _, _ => rfl
  | x :: xs, seen, ht => by
    simp only [dropDup]
    split_ifs with hx
    · have hxt : ¬ ((x.ticker == t) = true) := by
        simp only [beq_iff_eq]
        exact fun e => ht (e ▸ hx)
      rw [List.filter_cons_of_neg (p := fun (r : TRow α) => r.ticker == t) hxt]
      exact dropDup_filter_take t xs seen ht
    · by_cases hxt : x.ticker = t
      · rw [List.filter_cons_of_pos (p := fun (r : TRow α) => r.ticker == t) (by simpa using hxt),
          List.filter_cons_of_pos (p := fun (r : TRow α) => r.ticker == t) (by simpa using hxt),
          List.take_succ_cons, List.take_zero]
        have h0 : (dropDup (x.ticker :: seen) xs).filter (fun r => r.ticker == t) = [] :=
          dropDup_filter_of_mem t xs (x.ticker :: seen) (hxt ▸ List.mem_cons_self _ _)
        rw [h0]
      · have hxt' : ¬ ((x.ticker == t) = true) := by simpa using hxt
        rw [List.filter_cons_of_neg (p := fun (r : TRow α) => r.ticker == t) hxt',
          List.filter_cons_of_neg (p := fun (r : TRow α) => r.ticker == t) hxt']
        exact dropDup_filter_take t xs (x.ticker :: seen)
          (by simp only [List.mem_cons]; rintro (rfl | h) <;> [exact hxt rfl; exact ht h])

/-- Membership in the concatenated, timestamp-tagged rows. -/
theorem mem_combinedRows {α : Type} {files : List (ScrapeFile α)} {x : TRow α} :
    x ∈ combinedRows files ↔
      ∃ f ∈ files, ∃ r ∈ f.rows, x = ⟨r.ticker, f.timestamp, r.payload⟩ := by
  simp only [combinedRows, tagRows, List.mem_flatten, List.mem_map]
  constructor
  · rintro ⟨l, ⟨f, hf, rfl⟩, hx⟩
    obtain ⟨r, hr, rfl⟩ := List.mem_map.mp hx
    exact ⟨f, hf, r, hr, rfl⟩
  · rintro ⟨f, hf, r, hr, rfl⟩
    exact ⟨_, ⟨f, hf, rfl⟩, List.mem_map.mpr ⟨r, hr, rfl⟩⟩

/-- The ticker-`t` rows of the consolidated table are the first row of the
sorted tagged rows with ticker `t`, with the timestamp dropped. -/
theorem consolidate_filter_eq {α : Type} (files : List (ScrapeFile α)) (t : String) :
    (consolidate files).filter (fun s => s.ticker == t)
      = ((((combinedRows files).mergeSort rowLE).filter
            (fun r => r.ticker == t)).take 1).map dropTs := by
  have h1 : (consolidate files).filter (fun s => s.ticker == t)
      = ((dropDup [] ((combinedRows files).mergeSort rowLE)).filter
          (fun r => r.ticker == t)).map dropTs := by
    simp only [consolidate]
    rw [List.filter_map]
    rfl
  rw [h1, dropDup_filter_take t _ [] (List.not_mem_nil t)]

/-- Claim C1: for every region's set of parseable scrape files, the
consolidated table has exactly one row per ticker, and when a single
file has the strictly latest timestamp among the files containing a
ticker (and contains that ticker once), the consolidated row for that
ticker is that file's row, with the timestamp column dropped. -/
theorem consolidate_one_row_latest {α : Type} (files : List (ScrapeFile α)) (t : String) :
    ((∃ f ∈ files, ∃ r ∈ f.rows, r.ticker = t) →
      (consolidate files).countP (fun s => s.ticker == t) = 1)
    ∧ (∀ f ∈ files, ∀ r ∈ f.rows, r.ticker = t →
        (∀ r' ∈ f.rows, r'.ticker = t → r' = r) →
        (∀ g ∈ files, g ≠ f → (∃ r' ∈ g.rows, r'.ticker = t) → g.timestamp < f.timestamp) →
        (consolidate files).filter (fun s => s.ticker == t) = [⟨t, r.payload⟩]) := by
  have hperm := List.mergeSort_perm (combinedRows files) rowLE
  have hsorted := List.sorted_mergeSort rowLE_trans rowLE_total (combinedRows files)
  constructor
  · rintro ⟨f, hf, r, hr, hrt⟩
    have hx : (⟨t, f.timestamp, r.payload⟩ : TRow α) ∈ (combinedRows files).mergeSort rowLE := by
      rw [List.Perm.mem_iff hperm]
      exact mem_combinedRows.mpr ⟨f, hf, r, hr, by rw [hrt]⟩
    have hxF : (⟨t, f.timestamp, r.payload⟩ : TRow α)
        ∈ ((combinedRows files).mergeSort rowLE).filter (fun r => r.ticker == t) :=
      List.mem_filter.mpr ⟨hx, by simp⟩
    rw [List.countP_eq_length_filter, consolidate_filter_eq, List.length_map, List.length_take]
    have h1 : 1 ≤ (((combinedRows files).mergeSort rowLE).filter
        (fun r => r.ticker == t)).length :=
      List.length_pos.mpr (List.ne_nil_of_mem hxF)
    omega
  · intro f hf r hr hrt huniq hlatest
    set F := ((combinedRows files).mergeSort rowLE).filter (fun r => r.ticker == t) with hFdef
    have hx : (⟨t, f.timestamp, r.payload⟩ : TRow α) ∈ (combinedRows files).mergeSort rowLE := by
      rw [List.Perm.mem_iff hperm]
      exact mem_combinedRows.mpr ⟨f, hf, r, hr, by rw [hrt]⟩
    have hxF : (⟨t, f.timestamp, r.payload⟩ : TRow α) ∈ F :=
      List.mem_filter.mpr ⟨hx, by simp⟩
    obtain ⟨h, F', hF⟩ := List.exists_cons_of_ne_nil (List.ne_nil_of_mem hxF)
    have hFp : F.Pairwise (fun a b => rowLE a b = true) :=
      List.Pairwise.sublist (List.filter_sublist _) hsorted
    have hmemF : ∀ y ∈ F, y ∈ combinedRows files ∧ y.ticker = t := by
      intro y hy
      have hy' := List.mem_filter.mp hy
      exact ⟨(List.Perm.mem_iff hperm).mp hy'.1, by simpa using hy'.2⟩
    have hht : h.ticker = t := (hmemF h (hF ▸ List.mem_cons_self _ _)).2
    have hmax : ∀ y ∈ F, y.timestamp ≤ h.timestamp := by
      intro y hy
      rw [hF] at hy
      rcases List.mem_cons.mp hy with rfl | hy'
      · exact le_refl _
      · have hyt : y.ticker = t := (hmemF y (hF ▸ List.mem_cons_of_mem _ hy')).2
        have hle : rowLE h y = true := (List.pairwise_cons.mp (hF ▸ hFp)).1 y hy'
        unfold rowLE at hle
        rw [if_pos (hht.trans hyt.symm)] at hle
        exact of_decide_eq_true hle
    have hfh : f.timestamp ≤ h.timestamp := hmax _ hxF
    obtain ⟨g, hg, r', hr', hEq⟩ :=
      mem_combinedRows.mp (hmemF h (hF ▸ List.mem_cons_self _ _)).1
    have hr't : r'.ticker = t := by rw [hEq] at hht; exact hht
    by_cases hgf : g = f
    · subst hgf
      have hrr : r' = r := huniq r' hr' hr't
      subst hrr
      rw [consolidate_filter_eq, ← hFdef, hF]
      simp only [List.take_succ_cons, List.take_zero, List.map_cons, List.map_nil]
      rw [hEq]
      simp [dropTs, hr't]
    · exfalso
      have hlt := hlatest g hg hgf ⟨r', hr', hr't⟩
      have hts : h.timestamp = g.timestamp := by rw [hEq]
      omega

/-- Witness for C1, following the end-to-end scenario of the spec: two
scrape files both containing AAPL, the later one winning. -/
theorem consolidate_one_row_latest_witness :
    (consolidate [⟨20240101000000, [⟨"AAPL", (10 : ℕ)⟩]⟩,
        ⟨20240102000000, [⟨"AAPL", 12⟩]⟩]).filter (fun s => s.ticker == "AAPL")
      = [⟨"AAPL", 12⟩] :=
  (consolidate_one_row_latest
      [⟨20240101000000, [⟨"AAPL", (10 : ℕ)⟩]⟩, ⟨20240102000000, [⟨"AAPL", 12⟩]⟩] "AAPL").2
    ⟨20240102000000, [⟨"AAPL", 12⟩]⟩ (by decide) ⟨"AAPL", 12⟩ (by decide) rfl
    (by decide) (by decide)

/-- Claim C7: consolidation is a pure deterministic function of the
scrape files, so two runs on the same files (in the same enumeration
order) produce identical consolidated tables. -/
theorem consolidate_deterministic {α : Type} (files : List (ScrapeFile α)) :
    consolidate files = consolidate files := rfl

/-! ## The consolidated table's row type

One row of `{region}_screen_data.csv`, with the columns the refresh and
screening steps read.  Numeric cells may be NaN (`none`). -/

structure CRow where
  ticker : String
  companyName : String
  industry : String
  marketPrice : Cell
  marketCap : Cell
  marketCurrency : String
  pastAnnualSales : Cell
  pastAnnualCogs : Cell
  pastAnnualOpex : Cell
  pastFYDividends : Cell
  latestInvestedCapital : Cell
  latestTotalDebt : Cell
  latestCommonEquity : Cell
deriving DecidableEq

/-! ## Partial refresh (`clean_data.py`, `skip=False` branch and
`fetch_stock_data`)

`fetch_stock_data` returns a dict from ticker to either
`{'price': p, 'market_cap': c}` or `None`; a ticker can also be missing
from the dict entirely (when every retry ends without an exception but
with a `None` price or market cap).  The dict is modelled as an
association list; `lookupFetch` returns `none` for a missing key and
`some v` for a present binding. -/

structure Fetched where
  price : ℚ
  marketCap : ℚ
deriving DecidableEq

abbrev FetchMap := List (String × Option Fetched)

def lookupFetch (m : FetchMap) (t : String) : Option (Option Fetched) :=
  (m.find? (fun kv => kv.1 == t)).map Prod.snd

/-- `df['Ticker'].map(price_series)`: the fresh price for a row, NaN when
the fetch failed or the ticker is missing from the fetched data. -/
def mapPrice (m : FetchMap) (r : CRow) : Cell :=
  match lookupFetch m r.ticker with
  | some (some f) => some f.price
  | _ => none

/-- `df['Ticker'].map(market_cap_series)`. -/
def mapCap (m : FetchMap) (r : CRow) : Cell :=
  match lookupFetch m r.ticker with
  | some (some f) => some f.marketCap
  | _ => none

/-- The two `combine_first` updates: the fresh value where present,
otherwise the prior value. -/
def refreshRow (m : FetchMap) (r : CRow) : CRow :=
  { r with marketPrice := (mapPrice m r).or r.marketPrice,
           marketCap := (mapCap m r).or r.marketCap }

/-- The `skip=False` update branch of `clean_scraped_data` applied to the
existing consolidated table. -/
def refresh (m : FetchMap) (tbl : List CRow) : List CRow :=
  tbl.map (refreshRow m)

/-- Claim C5: the refresh has coalesce semantics.  Rows are updated in
place (`tbl.zip (refresh m tbl)` pairs each prior row with its refreshed
row): a ticker whose fetch failed (missing from the fetched data, or
mapped to `None`) keeps its prior Market Price and Market Cap; a ticker
with a fresh value gets the fresh value. -/
theorem refresh_coalesce (m : FetchMap) (tbl : List CRow) (p : CRow × CRow)
    (hp : p ∈ tbl.zip (refresh m tbl)) :
    ((lookupFetch m p.1.ticker = none ∨ lookupFetch m p.1.ticker = some none) →
      p.2.marketPrice = p.1.marketPrice ∧ p.2.marketCap = p.1.marketCap)
    ∧ (∀ f : Fetched, lookupFetch m p.1.ticker = some (some f) →
      p.2.marketPrice = some f.price ∧ p.2.marketCap = some f.marketCap) := by
  have hz : ∀ l : List CRow, l.zip (refresh m l) = l.map (fun r => (r, refreshRow m r)) := by
    intro l
    unfold refresh
    induction l with
    | nil => rfl
    | cons r tl ih => simpa [refresh] using ih
  rw [hz] at hp
  obtain ⟨r, _, rfl⟩ := List.mem_map.mp hp
  constructor
  · intro hfail
    rcases hfail with hfail | hfail <;>
      simp [refreshRow, mapPrice, mapCap, hfail]
  · intro f hf
    simp [refreshRow, mapPrice, mapCap, hf]

/-- Witness for C5: a two-row table where AAPL's fetch failed (keeps its
prior values) and MSFT's fetch succeeded (gets the fresh values). -/
theorem refresh_coalesce_witness :
    (let row1 : CRow :=
      ⟨"AAPL", "Apple", "Tech", some 10, some 100, "USD",
        some 100, some 40, some 20, some 1, some 500, some 50, some 200⟩
    let m : FetchMap := [("AAPL", none)]
    ((⟨row1, refreshRow m row1⟩ : CRow × CRow).2.marketPrice = some 10 ∧
      (⟨row1, refreshRow m row1⟩ : CRow × CRow).2.marketCap = some 100)) := by
  intro row1 m
  exact (refresh_coalesce m [row1] (row1, refreshRow m row1) (by decide)).1 (Or.inr (by decide))

/-- Claim C9: the refresh is a frame update.  It preserves the number
and order of rows, and every column other than Market Price and Market
Cap is unchanged row by row. -/
theorem refresh_frame (m : FetchMap) (tbl : List CRow) :
    (refresh m tbl).map (fun r => (r.ticker, r.companyName, r.industry, r.marketCurrency,
        r.pastAnnualSales, r.pastAnnualCogs, r.pastAnnualOpex, r.pastFYDividends,
        r.latestInvestedCapital, r.latestTotalDebt, r.latestCommonEquity))
      = tbl.map (fun r => (r.ticker, r.companyName, r.industry, r.marketCurrency,
        r.pastAnnualSales, r.pastAnnualCogs, r.pastAnnualOpex, r.pastFYDividends,
        r.latestInvestedCapital, r.latestTotalDebt, r.latestCommonEquity))
    ∧ (refresh m tbl).length = tbl.length := by
  constructor
  · induction tbl with
    | nil => rfl
    | cons r tl ih => simp only [refresh, List.map_cons, List.cons.injEq]; exact ⟨rfl, by simpa [refresh] using ih⟩
  · simp [refresh]

/-! ## Screening and ranking (`screen_data.py`)

`screen_companies` computes NaN-propagating ratio columns, filters by a
validity mask, ranks the metrics with pandas' competition ("min")
ranking, and combines the ranks.  The `min` rank of a value in a series
without NaNs is one plus the number of strictly better values, which is
how the rank columns are rendered below. -/

/-- `EBIT = Past Annual Sales - Past Annual Cogs - Past Annual Opex`,
NaN-propagating. -/
def ebit (r : CRow) : Cell := do
  let s <- r.pastAnnualSales
  let c <- r.pastAnnualCogs
  let o <- r.pastAnnualOpex
  pure (s - c - o)

/-- A pandas `> 0` comparison on a cell: false on NaN. -/
def cellPos (c : Cell) : Bool :=
  match c with
  | some x => decide (0 < x)
  | none => false

/-- The `valid_mask` of `screen_companies`. -/
def valid (r : CRow) : Bool :=
  cellPos r.marketPrice && cellPos r.marketCap && cellPos r.latestInvestedCapital &&
    (ebit r).isSome && r.pastFYDividends.isSome &&
    r.latestCommonEquity.isSome && r.latestTotalDebt.isSome

/-- `positive_equity`: `Latest Common Equity > 0` (false on NaN). -/
def positiveEquity (r : CRow) : Bool := cellPos r.latestCommonEquity

/-- The `EBIT/Market Cap` column (NaN-propagating). -/
def ebitMCCell (r : CRow) : Cell := do
  let e <- ebit r
  let c <- r.marketCap
  pure (e / c)

/-- The `ROIC` column. -/
def roicCell (r : CRow) : Cell := do
  let e <- ebit r
  let c <- r.latestInvestedCapital
  pure (e / c)

/-- The `D/P` column. -/
def dpCell (r : CRow) : Cell := do
  let d <- r.pastFYDividends
  let p <- r.marketPrice
  pure (d / p)

/-- The `Total Debt/Common Equity` column.  For a zero-equity row pandas
produces an infinity here where rational division gives 0; that entry is
only displayed, never ranked: zero-equity rows are ranked by
`Latest Total Debt` in the non-positive-equity branch. -/
def debtEqCell (r : CRow) : Cell := do
  let d <- r.latestTotalDebt
  let e <- r.latestCommonEquity
  pure (d / e)

/-- Metric value used for ranking.  On rows passing the validity mask
every field involved is present and every divisor is strictly positive,
so the `getD 0` defaults are never taken on ranked values. -/
def vEbitMC (r : CRow) : ℚ := (ebit r).getD 0 / r.marketCap.getD 0

/-- `EBIT / Latest Invested Capital` as a ranked value. -/
def vRoic (r : CRow) : ℚ := (ebit r).getD 0 / r.latestInvestedCapital.getD 0

/-- `Past Financial Year Dividends / Market Price` as a ranked value. -/
def vDP (r : CRow) : ℚ := r.pastFYDividends.getD 0 / r.marketPrice.getD 0

/-- `Latest Total Debt / Latest Common Equity` as a ranked value (only
ranked within the positive-equity group, where the divisor is positive). -/
def vDebtEq (r : CRow) : ℚ := r.latestTotalDebt.getD 0 / r.latestCommonEquity.getD 0

/-- `Latest Total Debt` as a ranked value. -/
def vTotalDebt (r : CRow) : ℚ := r.latestTotalDebt.getD 0

/-- `series.rank(ascending=False, method='min')`: one plus the number of
strictly greater values in the series. -/
def rankDescBy (f : CRow → ℚ) (rows : List CRow) (r : CRow) : ℕ :=
  1 + rows.countP (fun x => decide (f r < f x))

/-- `series.rank(ascending=True, method='min')`: one plus the number of
strictly smaller values in the series. -/
def rankAscBy (f : CRow → ℚ) (rows : List CRow) (r : CRow) : ℕ :=
  1 + rows.countP (fun x => decide (f x < f r))

/-- `M = df_valid['positive_equity'].sum()`. -/
def posCount (rows : List CRow) : ℕ := (rows.filter positiveEquity).length

/-- The `Total Debt/Common Equity_rank` column: positive-equity rows are
ranked by the debt-to-equity ratio within their group; the others are
ranked by `Latest Total Debt` within their group and offset by `M`. -/
def debtRank (rows : List CRow) (r : CRow) : ℕ :=
  if positiveEquity r then rankAscBy vDebtEq (rows.filter positiveEquity) r
  else posCount rows + rankAscBy vTotalDebt (rows.filter (fun x => !positiveEquity x)) r

/-- `composite_score = D/P_rank + Total Debt/Common Equity_rank`. -/
def compositeScore (rows : List CRow) (r : CRow) : ℕ :=
  rankDescBy vDP rows r + debtRank rows r

/-- `composite_rank`: ascending min-rank of the composite score. -/
def compositeRank (rows : List CRow) (r : CRow) : ℕ :=
  1 + rows.countP (fun x => decide (compositeScore rows x < compositeScore rows r))

/-- `Combined_rank = EBIT/Market Cap_rank + ROIC_rank + composite_rank`. -/
def combinedRank (rows : List CRow) (r : CRow) : ℕ :=
  rankDescBy vEbitMC rows r + rankDescBy vRoic rows r + compositeRank rows r

/-- One row of `{region}_screened.csv`: the output column projection. -/
structure OutRow where
  ticker : String
  companyName : String
  industry : String
  marketPrice : Cell
  marketCap : Cell
  marketCurrency : String
  ebitMC : Cell
  roic : Cell
  dp : Cell
  debtEq : Cell
  combined : ℕ
deriving DecidableEq

/-- The output projection of one (filtered) row. -/
def outRowOf (rows : List CRow) (r : CRow) : OutRow :=
  ⟨r.ticker, r.companyName, r.industry, r.marketPrice, r.marketCap, r.marketCurrency,
    ebitMCCell r, roicCell r, dpCell r, debtEqCell r, combinedRank rows r⟩

/-- `screen_companies` for one region: filter by the validity mask, rank,
sort ascending by the combined rank, and project the output columns.
The final single-column `sort_values('Combined_rank')` is modelled with
a stable merge sort (see C8 for the tie-order caveat). -/
def screenCompanies (tbl : List CRow) : List OutRow :=
  let dfValid := tbl.filter valid
  (dfValid.mergeSort
      (fun a b => decide (combinedRank dfValid a ≤ combinedRank dfValid b))).map
    (outRowOf dfValid)

/-! ### Competition-ranking counting lemmas -/

theorem countP_lt_mono_desc {α : Type} (l : List α) (f : α → ℚ) {r1 r2 : α}
    (hmem : r1 ∈ l) (h : f r2 < f r1) :
    l.countP (fun x => decide (f r1 < f x)) < l.countP (fun x => decide (f r2 < f x)) := by
  obtain ⟨s, t, rfl⟩ := List.append_of_mem hmem
  simp only [List.countP_append, List.countP_cons]
  have e1 : decide (f r1 < f r1) = false := by
    simp only [decide_eq_false_iff_not]; exact lt_irrefl _
  have e2 : decide (f r2 < f r1) = true := by simpa using h
  have m1 : (s.countP fun x => decide (f r1 < f x)) ≤ s.countP fun x => decide (f r2 < f x) :=
    List.countP_mono_left (fun a _ ha => by
      simp only [decide_eq_true_eq] at ha ⊢; exact h.trans ha)
  have m2 : (t.countP fun x => decide (f r1 < f x)) ≤ t.countP fun x => decide (f r2 < f x) :=
    List.countP_mono_left (fun a _ ha => by
      simp only [decide_eq_true_eq] at ha ⊢; exact h.trans ha)
  simp only [e1, e2]
  simp only [Bool.false_eq_true, if_false, if_true]
  omega

theorem countP_lt_mono_asc {α : Type} (l : List α) (f : α → ℚ) {r1 r2 : α}
    (hmem : r1 ∈ l) (h : f r1 < f r2) :
    l.countP (fun x => decide (f x < f r1)) < l.countP (fun x => decide (f x < f r2)) := by
  obtain ⟨s, t, rfl⟩ := List.append_of_mem hmem
  simp only [List.countP_append, List.countP_cons]
  have e1 : decide (f r1 < f r1) = false := by
    simp only [decide_eq_false_iff_not]; exact lt_irrefl _
  have e2 : decide (f r1 < f r2) = true := by simpa using h
  have m1 : (s.countP fun x => decide (f x < f r1)) ≤ s.countP fun x => decide (f x < f r2) :=
    List.countP_mono_left (fun a _ ha => by
      simp only [decide_eq_true_eq] at ha ⊢; exact ha.trans h)
  have m2 : (t.countP fun x => decide (f x < f r1)) ≤ t.countP fun x => decide (f x < f r2) :=
    List.countP_mono_left (fun a _ ha => by
      simp only [decide_eq_true_eq] at ha ⊢; exact ha.trans h)
  simp only [e1, e2]
  simp only [Bool.false_eq_true, if_false, if_true]
  omega

/-- If no value of `f` on `l` lies strictly between `a` and `b`, then the
values above `a` are the values above `b` plus the values equal to `b`. -/
theorem countP_lt_split {α : Type} (l : List α) (f : α → ℚ) (a b : ℚ) (hab : a < b)
    (hno : ∀ x ∈ l, ¬ (a < f x ∧ f x < b)) :
    l.countP (fun x => decide (a < f x))
      = l.countP (fun x => decide (b < f x)) + l.countP (fun x => decide (f x = b)) := by
  induction l with
  | nil => rfl
  | cons y ys ih =>
    have hy := hno y (List.mem_cons_self _ _)
    have ih' := ih (fun x hx => hno x (List.mem_cons_of_mem _ hx))
    simp only [List.countP_cons]
    rcases lt_trichotomy (f y) b with hyb | hyb | hyb
    · have h1 : decide (a < f y) = false := by
        simp only [decide_eq_false_iff_not]; exact fun h => hy ⟨h, hyb⟩
      have h2 : decide (b < f y) = false := by
        simp only [decide_eq_false_iff_not]; exact not_lt.mpr hyb.le
      have h3 : decide (f y = b) = false := by
        simp only [decide_eq_false_iff_not]; exact hyb.ne
      simp only [h1, h2, h3, Bool.false_eq_true, if_false]
      omega
    · have h1 : decide (a < f y) = true := by simpa using hyb ▸ hab
      have h2 : decide (b < f y) = false := by
        simp only [decide_eq_false_iff_not]; rw [hyb]; exact lt_irrefl b
      have h3 : decide (f y = b) = true := by simpa using hyb
      simp only [h1, h2, h3, Bool.false_eq_true, if_false, if_true]
      omega
    · have h1 : decide (a < f y) = true := by simpa using hab.trans hyb
      have h2 : decide (b < f y) = true := by simpa using hyb
      have h3 : decide (f y = b) = false := by
        simp only [decide_eq_false_iff_not]; exact (ne_of_gt hyb)
      simp only [h1, h2, h3, Bool.false_eq_true, if_false, if_true]
      omega

theorem cellPos_iff {c : Cell} : cellPos c = true ↔ ∃ x, c = some x ∧ 0 < x := by
  cases c <;> simp [cellPos]

/-! ### The spec's description of the partitioned ranking variant

`specCombinedScore` is written from the words of the specification (the
partitioned negative-equity variant, with competition ranks spelled as
explicit counts), independently of the pipeline definitions above; the
C2 theorem compares the combined rank computed by `screenCompanies`
against it. -/

/-- Modelled from the spec: debt rank of the partitioned variant. -/
def specDebtRank (rows : List CRow) (r : CRow) : ℕ :=
  if cellPos r.latestCommonEquity then
    1 + (rows.filter (fun x => cellPos x.latestCommonEquity)).countP
        (fun x => decide (vDebtEq x < vDebtEq r))
  else
    (rows.filter (fun x => cellPos x.latestCommonEquity)).length
      + (1 + (rows.filter (fun x => !cellPos x.latestCommonEquity)).countP
          (fun x => decide (vTotalDebt x < vTotalDebt r)))

/-- Modelled from the spec: composite rank = ascending rank of
(dividend-yield rank + debt rank). -/
def specCompositeRank (rows : List CRow) (r : CRow) : ℕ :=
  1 + rows.countP (fun x =>
    decide ((1 + rows.countP (fun y => decide (vDP x < vDP y))) + specDebtRank rows x
      < (1 + rows.countP (fun y => decide (vDP r < vDP y))) + specDebtRank rows r))

/-- Modelled from the spec: combined score = EBIT-yield rank + ROIC rank
+ composite rank. -/
def specCombinedScore (rows : List CRow) (r : CRow) : ℕ :=
  (1 + rows.countP (fun x => decide (vEbitMC r < vEbitMC x)))
    + (1 + rows.countP (fun x => decide (vRoic r < vRoic x)))
    + specCompositeRank rows r

/-- Claim C2: every row of the screened output carries the combined rank
of the partitioned negative-equity variant described by the spec, for
its source row in the filtered table. -/
theorem screen_partitioned_variant (tbl : List CRow) (o : OutRow)
    (ho : o ∈ screenCompanies tbl) :
    ∃ r ∈ tbl.filter valid, o = outRowOf (tbl.filter valid) r ∧
      o.combined = specCombinedScore (tbl.filter valid) r := by
  simp only [screenCompanies] at ho
  obtain ⟨r, hr, rfl⟩ := List.mem_map.mp ho
  have hrF : r ∈ tbl.filter valid := (List.mergeSort_perm _ _).mem_iff.mp hr
  exact ⟨r, hrF, rfl, rfl⟩

/-- Claim C3: every output row comes from an input row that passed the
validity mask (positive price, market cap, invested capital; present
EBIT inputs, dividends, common equity and total debt), and rows that
fail the mask are excluded from the output entirely (the output has
exactly one row per filtered input row). -/
theorem screen_rows_only_valid (tbl : List CRow) (o : OutRow)
    (ho : o ∈ screenCompanies tbl) :
    (∃ r ∈ tbl, valid r = true ∧ o = outRowOf (tbl.filter valid) r ∧
      (∃ p, r.marketPrice = some p ∧ 0 < p) ∧
      (∃ c, r.marketCap = some c ∧ 0 < c) ∧
      (∃ ic, r.latestInvestedCapital = some ic ∧ 0 < ic) ∧
      (ebit r).isSome = true ∧ r.pastFYDividends.isSome = true ∧
      r.latestCommonEquity.isSome = true ∧ r.latestTotalDebt.isSome = true)
    ∧ (screenCompanies tbl).length = (tbl.filter valid).length := by
  constructor
  · simp only [screenCompanies] at ho
    obtain ⟨r, hr, rfl⟩ := List.mem_map.mp ho
    have hrF : r ∈ tbl.filter valid := (List.mergeSort_perm _ _).mem_iff.mp hr
    have hv := List.mem_filter.mp hrF
    have h := hv.2
    simp only [valid, Bool.and_eq_true] at h
    obtain ⟨⟨⟨⟨⟨⟨h1, h2⟩, h3⟩, h4⟩, h5⟩, h6⟩, h7⟩ := h
    exact ⟨r, hv.1, hv.2, rfl,
      cellPos_iff.mp h1, cellPos_iff.mp h2, cellPos_iff.mp h3, h4, h5, h6, h7⟩
  · simp [screenCompanies]

/-- Claim C4: each metric rank is a competition ("min") rank over the
filtered table: equal metric values share a rank; the next distinct
worse value's rank is the shared rank plus the tie-group size; EBIT
yield, ROIC and dividend yield rank descending (a strictly higher value
gets a strictly smaller rank) and the debt ratio ranks ascending within
the positive-equity group. -/
theorem rank_min_competition (tbl : List CRow) (r1 r2 r3 : CRow)
    (h1 : r1 ∈ tbl.filter valid) (_h3 : r3 ∈ tbl.filter valid) :
    (vEbitMC r1 = vEbitMC r2 →
      rankDescBy vEbitMC (tbl.filter valid) r1 = rankDescBy vEbitMC (tbl.filter valid) r2)
    ∧ (vEbitMC r3 < vEbitMC r1 →
        (∀ x ∈ tbl.filter valid, ¬ (vEbitMC r3 < vEbitMC x ∧ vEbitMC x < vEbitMC r1)) →
        rankDescBy vEbitMC (tbl.filter valid) r3
          = rankDescBy vEbitMC (tbl.filter valid) r1
            + (tbl.filter valid).countP (fun x => decide (vEbitMC x = vEbitMC r1)))
    ∧ (vEbitMC r2 < vEbitMC r1 →
        rankDescBy vEbitMC (tbl.filter valid) r1 < rankDescBy vEbitMC (tbl.filter valid) r2)
    ∧ (vRoic r2 < vRoic r1 →
        rankDescBy vRoic (tbl.filter valid) r1 < rankDescBy vRoic (tbl.filter valid) r2)
    ∧ (vDP r2 < vDP r1 →
        rankDescBy vDP (tbl.filter valid) r1 < rankDescBy vDP (tbl.filter valid) r2)
    ∧ (positiveEquity r1 = true → positiveEquity r2 = true → vDebtEq r1 < vDebtEq r2 →
        debtRank (tbl.filter valid) r1 < debtRank (tbl.filter valid) r2) := by
  refine ⟨?_, ?_, ?_, ?_, ?_, ?_⟩
  · intro he
    simp only [rankDescBy, he]
  · intro hlt hno
    simp only [rankDescBy]
    have := countP_lt_split (tbl.filter valid) vEbitMC (vEbitMC r3) (vEbitMC r1) hlt hno
    omega
  · intro hlt
    simp only [rankDescBy]
    have := countP_lt_mono_desc (tbl.filter valid) vEbitMC h1 hlt
    omega
  · intro hlt
    simp only [rankDescBy]
    have := countP_lt_mono_desc (tbl.filter valid) vRoic h1 hlt
    omega
  · intro hlt
    simp only [rankDescBy]
    have := countP_lt_mono_desc (tbl.filter valid) vDP h1 hlt
    omega
  · intro hp1 hp2 hlt
    simp only [debtRank, if_pos hp1, if_pos hp2, rankAscBy]
    have hmem : r1 ∈ (tbl.filter valid).filter positiveEquity :=
      List.mem_filter.mpr ⟨h1, hp1⟩
    have := countP_lt_mono_asc ((tbl.filter valid).filter positiveEquity) vDebtEq hmem hlt
    omega

/-! ### Demonstration tables used by the witnesses

Fields in order: ticker, company name, industry, market price, market
cap, currency, sales, COGS, opex, dividends, invested capital, total
debt, common equity. -/

def rowA : CRow :=
  ⟨"A", "A Corp", "Ind", some 1, some 1, "USD",
    some 3, some 1, some 1, some 1, some 1, some 1, some 1⟩

def rowB : CRow :=
  ⟨"B", "B Corp", "Ind", some 1, some 1, "USD",
    some 4, some 1, some 1, some 0, some 1, some 4, some 2⟩

/-- A company with negative common equity (partitioned-variant branch). -/
def rowC : CRow :=
  ⟨"C", "C Corp", "Ind", some 1, some 1, "USD",
    some 2, some 1, some 1, some 2, some 1, some 3, some (-1)⟩

/-- A row with `Market Cap = 0`, which must never reach the output. -/
def rowZ : CRow :=
  ⟨"Z", "Z Corp", "Ind", some 1, some 0, "USD",
    some 3, some 1, some 1, some 1, some 1, some 1, some 1⟩

def demoTbl : List CRow := [rowA, rowB, rowC]

def demoMixed : List CRow := [rowZ, rowA]

def tieRow1 : CRow :=
  ⟨"T1", "T1 Corp", "Ind", some 1, some 1, "USD",
    some 3, some 1, some 1, some 1, some 1, some 1, some 1⟩

def tieRow2 : CRow :=
  ⟨"T2", "T2 Corp", "Ind", some 1, some 1, "USD",
    some 5, some 2, some 2, some 1, some 1, some 2, some 1⟩

def tieRow3 : CRow :=
  ⟨"T3", "T3 Corp", "Ind", some 1, some 1, "USD",
    some 2, some 1, some 1, some 1, some 1, some 1, some 1⟩

def tieTbl : List CRow := [tieRow1, tieRow2, tieRow3]

/-- Evaluation of the combined rank on the demo table. -/
theorem combinedRank_rowA : combinedRank demoTbl rowA = 5 := by
  norm_num [combinedRank, rankDescBy, compositeRank, compositeScore, debtRank, rankAscBy,
    posCount, demoTbl, positiveEquity, cellPos, List.countP_cons, List.countP_nil,
    List.filter_cons, List.filter_nil, vEbitMC, vRoic, vDP, vDebtEq, vTotalDebt, ebit,
    rowA, rowB, rowC]

/-- Evaluation of the combined rank on the demo table. -/
theorem combinedRank_rowB : combinedRank demoTbl rowB = 5 := by
  norm_num [combinedRank, rankDescBy, compositeRank, compositeScore, debtRank, rankAscBy,
    posCount, demoTbl, positiveEquity, cellPos, List.countP_cons, List.countP_nil,
    List.filter_cons, List.filter_nil, vEbitMC, vRoic, vDP, vDebtEq, vTotalDebt, ebit,
    rowA, rowB, rowC]

/-- Evaluation of the combined rank on the demo table. -/
theorem combinedRank_rowC : combinedRank demoTbl rowC = 8 := by
  norm_num [combinedRank, rankDescBy, compositeRank, compositeScore, debtRank, rankAscBy,
    posCount, demoTbl, positiveEquity, cellPos, List.countP_cons, List.countP_nil,
    List.filter_cons, List.filter_nil, vEbitMC, vRoic, vDP, vDebtEq, vTotalDebt, ebit,
    rowA, rowB, rowC]

/-- Witness for C2: in a three-row table whose third company has
negative common equity, the output row for that company carries the
partitioned variant's combined score. -/
theorem screen_partitioned_variant_witness :
    ∃ r ∈ demoTbl.filter valid,
      outRowOf (demoTbl.filter valid) rowC = outRowOf (demoTbl.filter valid) r ∧
      (outRowOf (demoTbl.filter valid) rowC).combined
        = specCombinedScore (demoTbl.filter valid) r := by
  apply screen_partitioned_variant
  have hf : demoTbl.filter valid = demoTbl := by decide
  have hs : demoTbl.mergeSort
      (fun a b => decide (combinedRank demoTbl a ≤ combinedRank demoTbl b)) = demoTbl := by
    apply List.mergeSort_of_sorted
    show List.Pairwise _ [rowA, rowB, rowC]
    refine List.Pairwise.cons ?_ (List.Pairwise.cons ?_
      (List.Pairwise.cons ?_ List.Pairwise.nil))
    · intro y hy
      rcases List.mem_cons.mp hy with rfl | hy
      · show decide (combinedRank demoTbl rowA ≤ combinedRank demoTbl rowB) = true
        rw [combinedRank_rowA, combinedRank_rowB]; decide
      · rcases List.mem_cons.mp hy with rfl | hy
        · show decide (combinedRank demoTbl rowA ≤ combinedRank demoTbl rowC) = true
          rw [combinedRank_rowA, combinedRank_rowC]; decide
        · exact absurd hy (List.not_mem_nil y)
    · intro y hy
      rcases List.mem_cons.mp hy with rfl | hy
      · show decide (combinedRank demoTbl rowB ≤ combinedRank demoTbl rowC) = true
        rw [combinedRank_rowB, combinedRank_rowC]; decide
      · exact absurd hy (List.not_mem_nil y)
    · intro y hy
      exact absurd hy (List.not_mem_nil y)
  simp only [screenCompanies, hf, hs]
  exact List.mem_map_of_mem _ (by decide)

/-- Witness for C3: a table with a zero-market-cap row and a valid row;
the zero-market-cap row is excluded and only the valid row is screened. -/
theorem screen_rows_only_valid_witness :
    (∃ r ∈ demoMixed, valid r = true ∧
      outRowOf (demoMixed.filter valid) rowA = outRowOf (demoMixed.filter valid) r ∧
      (∃ p, r.marketPrice = some p ∧ 0 < p) ∧
      (∃ c, r.marketCap = some c ∧ 0 < c) ∧
      (∃ ic, r.latestInvestedCapital = some ic ∧ 0 < ic) ∧
      (ebit r).isSome = true ∧ r.pastFYDividends.isSome = true ∧
      r.latestCommonEquity.isSome = true ∧ r.latestTotalDebt.isSome = true)
    ∧ (screenCompanies demoMixed).length = (demoMixed.filter valid).length := by
  apply screen_rows_only_valid
  have hf : demoMixed.filter valid = [rowA] := by decide
  simp only [screenCompanies, hf, List.mergeSort_singleton, List.map_cons, List.map_nil,
    List.mem_singleton]

/-- Evaluation of the EBIT yield on the tie table. -/
theorem vEbitMC_tie1 : vEbitMC tieRow1 = 1 := by norm_num [vEbitMC, ebit, tieRow1]

/-- Evaluation of the EBIT yield on the tie table. -/
theorem vEbitMC_tie2 : vEbitMC tieRow2 = 1 := by norm_num [vEbitMC, ebit, tieRow2]

/-- Evaluation of the EBIT yield on the tie table. -/
theorem vEbitMC_tie3 : vEbitMC tieRow3 = 0 := by norm_num [vEbitMC, ebit, tieRow3]

/-- Witness for C4: a table with two rows of equal EBIT yield and one
strictly worse row, exhibiting the shared rank and the tie-group skip. -/
theorem rank_min_competition_witness :
    rankDescBy vEbitMC (tieTbl.filter valid) tieRow1
        = rankDescBy vEbitMC (tieTbl.filter valid) tieRow2
    ∧ rankDescBy vEbitMC (tieTbl.filter valid) tieRow3
        = rankDescBy vEbitMC (tieTbl.filter valid) tieRow1
          + (tieTbl.filter valid).countP (fun x => decide (vEbitMC x = vEbitMC tieRow1)) := by
  have h := rank_min_competition tieTbl tieRow1 tieRow2 tieRow3 (by decide) (by decide)
  refine ⟨h.1 (by rw [vEbitMC_tie1, vEbitMC_tie2]),
    h.2.1 (by rw [vEbitMC_tie3, vEbitMC_tie1]; norm_num) ?_⟩
  intro x hx
  have hf : tieTbl.filter valid = [tieRow1, tieRow2, tieRow3] := by decide
  rw [hf] at hx
  rcases List.mem_cons.mp hx with rfl | hx
  · rw [vEbitMC_tie3, vEbitMC_tie1]
    norm_num
  · rcases List.mem_cons.mp hx with rfl | hx
    · rw [vEbitMC_tie3, vEbitMC_tie2, vEbitMC_tie1]
      norm_num
    · rcases List.mem_cons.mp hx with rfl | hx
      · rw [vEbitMC_tie3, vEbitMC_tie1]
        norm_num
      · exact absurd hx (List.not_mem_nil x)

/-! ## Collectors (`scrape_data_yfinance.py`, `scrape_data_yahooquery.py`)

The provider boundary is abstracted as a function giving, per ticker
(yfinance) or per batch (yahooquery), the outcome after the internal
retry loop: `none` models retries exhausted.  Batching
(`batch_size = 10`) is modelled with `chunked`; for the yfinance
collector it only inserts rate-limit delays, while for the yahooquery
collector failure is per batch. -/

/-- The `range(0, len(tickers), batch_size)` loop: split a list into
consecutive batches of `n`.  The fuel argument (instantiated with the
list length) makes the recursion structural. -/
def chunkGo {α : Type} (n : ℕ) : ℕ → List α → List (List α)
  | _, [] => []
  | 0, l => [l]
  | fuel + 1, l => l.take n :: chunkGo n fuel (l.drop n)

/-- Split a list into consecutive batches of `n`. -/
def chunked {α : Type} (n : ℕ) (l : List α) : List (List α) :=
  chunkGo n l.length l

/-- The fields of `stock.info` read by `get_ticker_data`; `none` models
an absent key (Python `dict.get`). -/
structure YfInfo where
  shortName : Option String
  industry : Option String
  currentPrice : Option ℚ
  currency : Option String
  financialCurrency : Option String
  marketCap : Option ℚ
  lastFiscalYearEnd : Option ℕ
  trailingAnnualDividendRate : Option ℚ
deriving DecidableEq

/-- The latest balance-sheet column, read when the frame is non-empty. -/
structure BalanceData where
  investedCapital : Option ℚ
  totalDebt : Option ℚ
  totalAssets : Option ℚ
  commonStockEquity : Option ℚ
deriving DecidableEq

/-- The latest financials column (yfinance). -/
structure FinData where
  totalRevenue : Option ℚ
  costOfRevenue : Option ℚ
  totalOperatingExpenses : Option ℚ
  grossProfit : Option ℚ
  operatingIncome : Option ℚ
  netIncome : Option ℚ
deriving DecidableEq

/-- The latest cash-flow column. -/
structure CashflowData where
  operating : Option ℚ
  financing : Option ℚ
  investing : Option ℚ
deriving DecidableEq

/-- Provider data for one ticker on a successful yfinance fetch; a
`none` statement frame models an empty DataFrame. -/
structure YfData where
  info : YfInfo
  balanceSheet : Option BalanceData
  financials : Option FinData
  cashflow : Option CashflowData
deriving DecidableEq

/-- The flat record built by `get_ticker_data` (one row of the scraped
CSV).  The financial-year-end date is kept as the raw timestamp
(`none` = absent or zero, printed as the string N/A by the code). -/
structure Record where
  ticker : String
  companyName : String
  industry : String
  marketPrice : Cell
  marketCurrency : String
  reportCurrency : String
  marketCap : Cell
  fyEnd : Option ℕ
  pastFYDividends : Cell
  latestInvestedCapital : Cell
  latestTotalDebt : Cell
  latestTotalAsset : Cell
  latestCommonEquity : Cell
  pastAnnualSales : Cell
  pastAnnualCogs : Cell
  pastAnnualOpex : Cell
  pastAnnualNetIncome : Cell
  cfOperating : Cell
  cfFinancing : Cell
  cfInvesting : Cell
deriving DecidableEq

/-- The record built by a successful `get_ticker_data` call.
`info.get('trailingAnnualDividendRate', 0)` makes the dividends field 0,
not absent, when the provider lacks the key. -/
def recordOfYf (t : String) (d : YfData) : Record :=
  { ticker := t
    companyName := d.info.shortName.getD "N/A"
    industry := d.info.industry.getD "N/A"
    marketPrice := d.info.currentPrice
    marketCurrency := d.info.currency.getD "N/A"
    reportCurrency := d.info.financialCurrency.getD "N/A"
    marketCap := d.info.marketCap
    fyEnd := match d.info.lastFiscalYearEnd with
      | some ts => if ts = 0 then none else some ts
      | none => none
    pastFYDividends := some (d.info.trailingAnnualDividendRate.getD 0)
    latestInvestedCapital := match d.balanceSheet with
      | some b => b.investedCapital
      | none => none
    latestTotalDebt := match d.balanceSheet with
      | some b => b.totalDebt
      | none => none
    latestTotalAsset := match d.balanceSheet with
      | some b => b.totalAssets
      | none => none
    latestCommonEquity := match d.balanceSheet with
      | some b => b.commonStockEquity
      | none => none
    pastAnnualSales := match d.financials with
      | some f => f.totalRevenue
      | none => none
    pastAnnualCogs := match d.financials with
      | some f => f.costOfRevenue
      | none => none
    pastAnnualOpex := match d.financials with
      | some f =>
        match f.totalOperatingExpenses with
        | some o => some o
        | none => do
            let gp <- f.grossProfit
            let oi <- f.operatingIncome
            pure (gp - oi)
      | none => none
    pastAnnualNetIncome := match d.financials with
      | some f => f.netIncome
      | none => none
    cfOperating := match d.cashflow with
      | some c => c.operating
      | none => none
    cfFinancing := match d.cashflow with
      | some c => c.financing
      | none => none
    cfInvesting := match d.cashflow with
      | some c => c.investing
      | none => none }

/-- The per-ticker loop of the yfinance `scrape_tickers` inside one
batch: a successful fetch is appended to the records, an exhausted
ticker is appended to the failed list and NOT emitted. -/
def processBatchYf (fetch : String → Option YfData) :
    List String → List Record × List String
  | [] => ([], [])
  | t :: ts =>
    let rest := processBatchYf fetch ts
    match fetch t with
    | some d => (recordOfYf t d :: rest.1, rest.2)
    | none => (rest.1, t :: rest.2)

/-- The batch loop of the yfinance `scrape_tickers`. -/
def scrapeYfGo (fetch : String → Option YfData) :
    List (List String) → List Record × List String
  | [] => ([], [])
  | b :: bs =>
    let r := processBatchYf fetch b
    let rest := scrapeYfGo fetch bs
    (r.1 ++ rest.1, r.2 ++ rest.2)

/-- `scrape_tickers` of `scrape_data_yfinance.py`: process the tickers
in batches of 10, returning the scraped records and the failed tickers. -/
def scrapeTickersYf (fetch : String → Option YfData) (tickers : List String) :
    List Record × List String :=
  scrapeYfGo fetch (chunked 10 tickers)

/-- Provider data for one ticker inside a successful yahooquery batch
(`all_modules` plus the three statement frames).  Each `Option` models a
`safe_get` path that may be broken at any level. -/
structure YqData where
  shortName : Option String
  industry : Option String
  regularMarketPrice : Option ℚ
  currency : Option String
  marketCap : Option ℚ
  trailingAnnualDividendRate : Option ℚ
  earningsDate : Option ℕ
  balance : Option BalanceData
  income : Option FinData
  cashflow : Option CashflowData
deriving DecidableEq

/-- The non-Ticker fields of a full yahooquery record.  The dividends
field is a plain rational: `safe_get(..., default=0)` always yields a
number. -/
structure YqFields where
  companyName : String
  industry : String
  marketPrice : Cell
  marketCurrency : String
  marketCapitalization : Cell
  pastFYDividends : ℚ
  fyEnd : Option ℕ
  latestInvestedCapital : Cell
  latestTotalDebt : Cell
  latestTotalAssets : Cell
  latestCommonEquity : Cell
  pastAnnualSales : Cell
  pastAnnualCogs : Cell
  pastAnnualOpex : Cell
  pastAnnualNetIncome : Cell
  cfOperating : Cell
  cfFinancing : Cell
  cfInvesting : Cell
deriving DecidableEq

/-- One emitted yahooquery record: `fields = none` models the
Ticker-only dict (`{'Ticker': t}`), whose other DataFrame columns are
all NaN. -/
structure YqRecord where
  ticker : String
  fields : Option YqFields
deriving DecidableEq

/-- The full record built for a ticker whose `all_modules` data is
present. -/
def recordOfYq (d : YqData) : YqFields :=
  { companyName := d.shortName.getD "N/A"
    industry := d.industry.getD "N/A"
    marketPrice := d.regularMarketPrice
    marketCurrency := d.currency.getD "N/A"
    marketCapitalization := d.marketCap
    pastFYDividends := d.trailingAnnualDividendRate.getD 0
    fyEnd := d.earningsDate
    latestInvestedCapital := match d.balance with
      | some b => b.investedCapital
      | none => none
    latestTotalDebt := match d.balance with
      | some b => b.totalDebt
      | none => none
    latestTotalAssets := match d.balance with
      | some b => b.totalAssets
      | none => none
    latestCommonEquity := match d.balance with
      | some b => b.commonStockEquity
      | none => none
    pastAnnualSales := match d.income with
      | some f => f.totalRevenue
      | none => none
    pastAnnualCogs := match d.income with
      | some f => f.costOfRevenue
      | none => none
    pastAnnualOpex := match d.income with
      | some f => f.totalOperatingExpenses
      | none => none
    pastAnnualNetIncome := match d.income with
      | some f => f.netIncome
      | none => none
    cfOperating := match d.cashflow with
      | some c => c.operating
      | none => none
    cfFinancing := match d.cashflow with
      | some c => c.financing
      | none => none
    cfInvesting := match d.cashflow with
      | some c => c.investing
      | none => none }

/-- `get_tickers_data` for one batch.  `outcome = none` models all batch
attempts raising (the final `return [{'Ticker': t} for t in tickers]`);
on a successful attempt, a ticker missing from `all_modules` is emitted
as a Ticker-only record. -/
def getTickersData (outcome : Option (String → Option YqData)) (tickers : List String) :
    List YqRecord :=
  match outcome with
  | none => tickers.map (fun t => ⟨t, none⟩)
  | some dataMap => tickers.map (fun t =>
      match dataMap t with
      | none => ⟨t, none⟩
      | some d => ⟨t, some (recordOfYq d)⟩)

/-- `len(data) <= 1`: the record is the Ticker-only dict. -/
def failedOfBatch (dl : List YqRecord) : List String :=
  dl.filterMap (fun d => if d.fields.isNone then some d.ticker else none)

/-- The batch loop of the yahooquery `scrape_tickers`: every record of
every batch is emitted; Ticker-only records are also reported as failed. -/
def scrapeYqGo (fetchB : List String → Option (String → Option YqData)) :
    List (List String) → List YqRecord × List String
  | [] => ([], [])
  | b :: bs =>
    let dl := getTickersData (fetchB b) b
    let rest := scrapeYqGo fetchB bs
    (dl ++ rest.1, failedOfBatch dl ++ rest.2)

/-- `scrape_tickers` of `scrape_data_yahooquery.py`. -/
def scrapeTickersYq (fetchB : List String → Option (String → Option YqData))
    (tickers : List String) : List YqRecord × List String :=
  scrapeYqGo fetchB (chunked 10 tickers)

/-! ### Collapsing the yfinance batch loop -/

theorem chunkGo_flatten {α : Type} (n : ℕ) (hn : 0 < n) :
    ∀ (fuel : ℕ) (l : List α), l.length ≤ fuel → (chunkGo n fuel l).flatten = l := by
  intro fuel
  induction fuel with
  | zero =>
    intro l hl
    have h0 : l = [] := List.eq_nil_of_length_eq_zero (Nat.le_zero.mp hl)
    subst h0
    rfl
  | succ fuel ih =>
    intro l hl
    cases l with
    | nil => rfl
    | cons x xs =>
      simp only [chunkGo, List.flatten_cons]
      rw [ih]
      · exact List.take_append_drop n (x :: xs)
      · simp only [List.length_drop, List.length_cons]
        simp only [List.length_cons] at hl
        omega

theorem processBatchYf_append (fetch : String → Option YfData) :
    ∀ l1 l2 : List String,
      processBatchYf fetch (l1 ++ l2)
        = ((processBatchYf fetch l1).1 ++ (processBatchYf fetch l2).1,
           (processBatchYf fetch l1).2 ++ (processBatchYf fetch l2).2) := by
  intro l1 l2
  induction l1 with
  | nil => simp [processBatchYf]
  | cons t ts ih =>
    simp only [List.cons_append, processBatchYf, List.append_eq]
    rw [ih]
    cases fetch t <;> simp

theorem processBatchYf_eq (fetch : String → Option YfData) :
    ∀ tickers : List String,
      processBatchYf fetch tickers
        = (tickers.filterMap (fun t => (fetch t).map (recordOfYf t)),
           tickers.filter (fun t => (fetch t).isNone)) := by
  intro tickers
  induction tickers with
  | nil => rfl
  | cons t ts ih =>
    simp only [processBatchYf, List.filterMap_cons, List.filter_cons]
    rw [ih]
    cases h : fetch t <;> simp [h]

theorem scrapeYfGo_eq (fetch : String → Option YfData) :
    ∀ bs : List (List String), scrapeYfGo fetch bs = processBatchYf fetch bs.flatten := by
  intro bs
  induction bs with
  | nil => rfl
  | cons b bs ih =>
    simp only [scrapeYfGo, List.flatten_cons, processBatchYf_append fetch b bs.flatten]
    rw [ih]

/-- The yfinance collector, batching collapsed: records for the
successfully fetched tickers in input order, failures for the rest. -/
theorem scrapeTickersYf_eq (fetch : String → Option YfData) (tickers : List String) :
    scrapeTickersYf fetch tickers
      = (tickers.filterMap (fun t => (fetch t).map (recordOfYf t)),
         tickers.filter (fun t => (fetch t).isNone)) := by
  unfold scrapeTickersYf chunked
  rw [scrapeYfGo_eq, chunkGo_flatten 10 (by norm_num) _ _ (le_refl _), processBatchYf_eq]

/-- Records and failures of any batch survive into the yahooquery
collector's result. -/
theorem scrapeYqGo_mem (fetchB : List String → Option (String → Option YqData)) :
    ∀ (bs : List (List String)) (b : List String), b ∈ bs →
      (∀ x ∈ getTickersData (fetchB b) b, x ∈ (scrapeYqGo fetchB bs).1)
      ∧ (∀ u ∈ failedOfBatch (getTickersData (fetchB b) b), u ∈ (scrapeYqGo fetchB bs).2) := by
  intro bs
  induction bs with
  | nil => intro b hb; exact absurd hb (List.not_mem_nil b)
  | cons c cs ih =>
    intro b hb
    rcases List.mem_cons.mp hb with rfl | hb
    · constructor
      · intro x hx
        simp only [scrapeYqGo]
        exact List.mem_append_left _ hx
      · intro u hu
        simp only [scrapeYqGo]
        exact List.mem_append_left _ hu
    · constructor
      · intro x hx
        simp only [scrapeYqGo]
        exact List.mem_append_right _ ((ih b hb).1 x hx)
      · intro u hu
        simp only [scrapeYqGo]
        exact List.mem_append_right _ ((ih b hb).2 u hu)

/-- Counterexample to C6 as stated: in the yfinance collector a ticker
whose retries are exhausted is not emitted as an unknown-marker record —
no record at all is emitted for it (it is only reported as failed). -/
theorem scrape_exhausted_counterexample :
    (¬ ∃ rec ∈ (scrapeTickersYf (fun _ => none) ["AAPL"]).1, rec.ticker = "AAPL")
    ∧ "AAPL" ∈ (scrapeTickersYf (fun _ => none) ["AAPL"]).2 := by decide

/-- Claim C6 (amended): on exhausted retries the ticker is reported as
failed and the remaining tickers are still processed, in both
collectors; the yahooquery collector additionally still emits a
Ticker-only record whose other fields are all the unknown marker, while
the yfinance collector emits no record for the failed ticker. -/
theorem scrape_exhausted_retries (fetch : String → Option YfData)
    (fetchB : List String → Option (String → Option YqData))
    (tickers : List String) (t : String) :
    (t ∈ tickers → fetch t = none →
      t ∈ (scrapeTickersYf fetch tickers).2
      ∧ (∀ rec ∈ (scrapeTickersYf fetch tickers).1, rec.ticker ≠ t)
      ∧ (∀ u ∈ tickers, ∀ d, fetch u = some d →
          recordOfYf u d ∈ (scrapeTickersYf fetch tickers).1))
    ∧ (∀ b ∈ chunked 10 tickers, fetchB b = none → t ∈ b →
        (⟨t, none⟩ : YqRecord) ∈ (scrapeTickersYq fetchB tickers).1
        ∧ t ∈ (scrapeTickersYq fetchB tickers).2) := by
  constructor
  · intro ht hnone
    rw [scrapeTickersYf_eq]
    refine ⟨?_, ?_, ?_⟩
    · simp only [List.mem_filter]
      exact ⟨ht, by simp [hnone]⟩
    · intro rec hrec hteq
      obtain ⟨u, hu, hmap⟩ := List.mem_filterMap.mp hrec
      cases h : fetch u with
      | none =>
        rw [h] at hmap
        exact Option.noConfusion hmap
      | some d =>
        rw [h] at hmap
        have hrec' : recordOfYf u d = rec := by simpa using hmap
        have hut : u = t := by rw [← hrec'] at hteq; exact hteq
        rw [hut, hnone] at h
        exact Option.noConfusion h
    · intro u hu d hd
      exact List.mem_filterMap.mpr ⟨u, hu, by rw [hd]; rfl⟩
  · intro b hb hbn htb
    have hg := scrapeYqGo_mem fetchB (chunked 10 tickers) b hb
    have hx : (⟨t, none⟩ : YqRecord) ∈ getTickersData (fetchB b) b := by
      rw [hbn]
      exact List.mem_map.mpr ⟨t, htb, rfl⟩
    refine ⟨hg.1 _ hx, hg.2 t ?_⟩
    rw [hbn]
    exact List.mem_filterMap.mpr ⟨⟨t, none⟩, List.mem_map.mpr ⟨t, htb, rfl⟩, rfl⟩

/-- A provider datum with every field absent (in particular no trailing
annual dividend rate). -/
def demoYfData : YfData :=
  ⟨⟨none, none, none, none, none, none, none, none⟩, none, none, none⟩

/-- A provider for which ticker A fails every retry and every other
ticker succeeds with `demoYfData`. -/
def demoFetch : String → Option YfData :=
  fun t => if t = "A" then none else some demoYfData

/-- Witness for C6 (amended): ticker A fails; yfinance reports it failed
and emits no record for it while still emitting B's record; yahooquery
(total batch failure) still emits A's Ticker-only record and reports A
failed. -/
theorem scrape_exhausted_retries_witness :
    ("A" ∈ (scrapeTickersYf demoFetch ["A", "B"]).2
      ∧ (∀ rec ∈ (scrapeTickersYf demoFetch ["A", "B"]).1, rec.ticker ≠ "A")
      ∧ (∀ u ∈ ["A", "B"], ∀ d, demoFetch u = some d →
          recordOfYf u d ∈ (scrapeTickersYf demoFetch ["A", "B"]).1))
    ∧ ((⟨"A", none⟩ : YqRecord) ∈ (scrapeTickersYq (fun _ => none) ["A", "B"]).1
        ∧ "A" ∈ (scrapeTickersYq (fun _ => none) ["A", "B"]).2) := by
  have h := scrape_exhausted_retries demoFetch (fun _ => none) ["A", "B"] "A"
  exact ⟨h.1 (by decide) (by decide), h.2 ["A", "B"] (by decide) rfl (by decide)⟩

/-- The `Past Financial Year Dividends` column of the DataFrame built
from the yahooquery records (NaN for a Ticker-only record). -/
def yqDividends (rec : YqRecord) : Cell :=
  rec.fields.map (fun f => f.pastFYDividends)

/-- Counterexample to C10 as stated: a yahooquery batch whose retries
are exhausted emits a Ticker-only record whose dividends cell is the
unknown marker, so the dividends-present filter condition does not hold
for every row of every collector-produced table. -/
theorem collector_dividends_counterexample :
    (⟨"A", none⟩ : YqRecord) ∈ (scrapeTickersYq (fun _ => none) ["A"]).1
    ∧ (yqDividends ⟨"A", none⟩).isSome = false := by decide

/-- Claim C10 (amended): a ticker whose provider data is present but
lacks the trailing-annual-dividend-rate field is recorded with
`Past Financial Year Dividends = 0`, not the unknown marker, by both
collectors; every record emitted by the yfinance collector has a present
dividends cell (so the Ranker's dividends-present filter condition holds
on every yfinance-collected table, and such companies are ranked as
zero-dividend rather than excluded); in the yahooquery collector the
same holds for every emitted record whose provider data was present. -/
theorem collector_dividends (fetch : String → Option YfData) (tickers : List String) :
    (∀ (t : String) (d : YfData), d.info.trailingAnnualDividendRate = none →
      (recordOfYf t d).pastFYDividends = some 0)
    ∧ (∀ d : YqData, d.trailingAnnualDividendRate = none →
      (recordOfYq d).pastFYDividends = 0)
    ∧ (∀ rec ∈ (scrapeTickersYf fetch tickers).1, rec.pastFYDividends.isSome = true)
    ∧ (∀ (fetchB : List String → Option (String → Option YqData)),
        ∀ rec ∈ (scrapeTickersYq fetchB tickers).1, rec.fields.isSome = true →
        (yqDividends rec).isSome = true) := by
  refine ⟨?_, ?_, ?_, ?_⟩
  · intro t d hd
    simp [recordOfYf, hd]
  · intro d hd
    simp [recordOfYq, hd]
  · intro rec hrec
    rw [scrapeTickersYf_eq] at hrec
    obtain ⟨u, hu, hmap⟩ := List.mem_filterMap.mp hrec
    cases h : fetch u with
    | none =>
      rw [h] at hmap
      exact Option.noConfusion hmap
    | some d =>
      rw [h] at hmap
      have hrec' : recordOfYf u d = rec := by simpa using hmap
      rw [← hrec']
      rfl
  · intro fetchB rec _ hfs
    simp only [yqDividends]
    cases hf : rec.fields with
    | none => rw [hf] at hfs; exact absurd hfs (by simp)
    | some f => simp

/-- Witness for C10 (amended): with the demo provider, ticker A's datum
lacks the dividend rate and is recorded with dividends 0; the record
emitted for ticker B has a present dividends cell. -/
theorem collector_dividends_witness :
    (recordOfYf "A" demoYfData).pastFYDividends = some 0
    ∧ (recordOfYf "B" demoYfData).pastFYDividends.isSome = true := by
  have h := collector_dividends demoFetch ["A", "B"]
  exact ⟨h.1 "A" demoYfData rfl,
    h.2.2.1 (recordOfYf "B" demoYfData) (by decide)⟩

end Screener
